import Mathlib

/-!
# KMC splitter (`kmc_core/splitter.h`): the hash scrambler and the counters

A shallow embedding of the inline functions defined in `splitter.h`:
`CSplitter::hash64`, `CSplitter::GetTotal`, `CSplitter::GetTotalKmers` and
`CWSmallKSplitter::GetTotalKmers`.  `uint64_t` values are natural numbers
below `2 ^ 64`; every addition and left shift is reduced modulo `2 ^ 64`.

`CSplitter::HomopolymerCompressSeq` is only declared in `splitter.h`; its
definition below follows the specification and says so.
-/

namespace KMC

/-! ## 64-bit unsigned arithmetic -/

/-- Bitwise complement of a `uint64_t` (`~x`). -/
def not64 (x : Nat) : Nat := 2 ^ 64 - 1 - x % 2 ^ 64

/-- Wrapping addition of two `uint64_t` (`a + b`). -/
def add64 (a b : Nat) : Nat := (a + b) % 2 ^ 64

/-- Left shift of a `uint64_t` (`x << s`), the bits shifted past bit 63 dropped. -/
def shl64 (x s : Nat) : Nat := (x <<< s) % 2 ^ 64

/-! ## The state of a splitter -/

/-- The fields of `class CSplitter` (splitter.h, lines 33-61).  The raw pointers
(`part`, `pmm_reads`, `s_mapper`, `ntHashEstimator`), `file_type` and the table
`codes` are not read by the functions embedded here.  The bin collectors `bins` are
kept as the list of k-mers waiting in them, and `bin_part_queue` as the list of
k-mers handed downstream; a k-mer is the list of its 2-bit base codes. -/
structure CSplitter where
  total_kmers : Nat := 0
  part_size : Nat
  part_pos : Nat
  bins : List (List Nat)
  bin_part_queue : List (List Nat)
  mem_part_pmm_bins : Int
  mem_part_pmm_reads : Int
  both_strands : Bool
  curr_read_len : Nat := 0
  kmer_len : Nat
  minimizerVersion : Nat
  delta_val : Nat
  window_len : Nat
  signature_len : Nat
  n_bins : Nat
  n_reads : Nat
  homopolymer_compressed : Bool
  deriving DecidableEq

namespace CSplitter

/-- `CSplitter::hash64` (splitter.h, lines 89-98).  In C++ `>>` binds tighter
than `^`, so `key ^ key >> s` is `key ^ (key >> s)`. -/
def hash64 (key mask : Nat) : Nat :=
  let key := add64 (not64 key) (shl64 key 21) &&& mask
  let key := key ^^^ (key >>> 24)
  let key := add64 (add64 key (shl64 key 3)) (shl64 key 8) &&& mask
  let key := key ^^^ (key >>> 14)
  let key := add64 (add64 key (shl64 key 2)) (shl64 key 4) &&& mask
  let key := key ^^^ (key >>> 28)
  let key := add64 key (shl64 key 31) &&& mask
  key

/-- The rounds of `hash64` as the comments of the source name them: the affine
map `key * (2^21 - 1) - 1`, then the multiplications by 265, 21 and `2^31 + 1`,
each reduced modulo `2 ^ 64` and masked, with the three xor-shifts in between. -/
def hash64_mul (key mask : Nat) : Nat :=
  let k1 := (((key : Int) * (2 ^ 21 - 1) - 1) % 2 ^ 64).toNat &&& mask
  let k2 := k1 ^^^ (k1 >>> 24)
  let k3 := ((265 * k2) % 2 ^ 64) &&& mask
  let k4 := k3 ^^^ (k3 >>> 14)
  let k5 := ((21 * k4) % 2 ^ 64) &&& mask
  let k6 := k5 ^^^ (k5 >>> 28)
  (((2 ^ 31 + 1) * k6) % 2 ^ 64) &&& mask

/-- `CSplitter::GetTotal(uint64 &_n_reads)` (splitter.h, lines 102-105): the
splitter after the call and the value left in the reference parameter, whose value
before the call is `_n_reads`. -/
def GetTotal (s : CSplitter) (_n_reads : Nat) : CSplitter × Nat := (s, s.n_reads)

/-- `CSplitter::GetTotalKmers()` (splitter.h, lines 109-112): the splitter after
the call and the value returned. -/
def GetTotalKmers (s : CSplitter) : CSplitter × Nat := (s, s.total_kmers)

/-- A freshly constructed splitter.  The constructor is only declared in
splitter.h; the default member initialisers of the class (lines 33 and 46) set
`total_kmers` and `curr_read_len` to 0, and `fields` carries what the constructor
stores in the other fields. -/
def constructed (fields : CSplitter) : CSplitter :=
  { fields with total_kmers := 0, curr_read_len := 0 }

/-- Modelled from the spec: the body of `CSplitter::HomopolymerCompressSeq`, which
splitter.h only declares.  Spec 4.1: it "collapses every run of ≥2 identical
consecutive bases to a single occurrence", keeping the order of the bases. -/
def collapseRuns : List Char → List Char
  | [] => []
  | [a] => [a]
  | a :: b :: rest => if a = b then collapseRuns (b :: rest) else a :: collapseRuns (b :: rest)

/-- Modelled from the spec: `CSplitter::HomopolymerCompressSeq(char* seq, uint32
&seq_size)`, which splitter.h only declares.  The sequence is the first `seq_size`
characters of `seq`; the result is the compressed sequence and the new value of
`seq_size` (spec 4.1: "it changes the sequence length"). -/
def HomopolymerCompressSeq (seq : List Char) (seq_size : Nat) : List Char × Nat :=
  let out := collapseRuns (seq.take seq_size)
  (out, out.length)

/-- A splitter with the given k-mer length and options, no read seen yet. -/
def sample (k : Nat) (both hc : Bool) : CSplitter :=
  constructed
    { part_size := 0, part_pos := 0, bins := [], bin_part_queue := [], mem_part_pmm_bins := 0,
      mem_part_pmm_reads := 0, both_strands := both, kmer_len := k, minimizerVersion := 0,
      delta_val := 0, window_len := 0, signature_len := 0, n_bins := 1, n_reads := 0,
      homopolymer_compressed := hc }

end CSplitter

/-! ## The small-k wrapper -/

/-- The fields of `class CWSmallKSplitter` (splitter.h, lines 160-170), the queue
and pool pointers left out; `spl` is the `unique_ptr`, `none` when it is null. -/
structure CWSmallKSplitter where
  small_k_buf : List Nat
  spl : Option CSplitter
  n_reads : Nat
  total_kmers : Nat
  kmer_len : Nat
  minimizerVersion : Nat
  delta_val : Nat
  window_len : Nat
  deriving DecidableEq

/-- `CWSmallKSplitter::GetTotalKmers()` (splitter.h, lines 183-188): the wrapper
after the call and the value returned. -/
def CWSmallKSplitter.GetTotalKmers (w : CWSmallKSplitter) : CWSmallKSplitter × Nat :=
  match w.spl with
  | some s => ({ w with spl := some s.GetTotalKmers.1 }, s.GetTotalKmers.2)
  | none => (w, w.total_kmers)

/-- A wrapper with the given splitter pointer and stored count. -/
def CWSmallKSplitter.sample (spl : Option CSplitter) (total : Nat) : CWSmallKSplitter :=
  { small_k_buf := [], spl := spl, n_reads := 0, total_kmers := total, kmer_len := 4,
    minimizerVersion := 0, delta_val := 0, window_len := 0 }

/-! ## Proof devices for the scrambler -/

/-- One masked affine round on `n` bits: `x ↦ (c * x + d) mod 2 ^ n`. -/
def affRound (n c d x : Nat) : Nat := (c * x + d) % 2 ^ n

/-- One xor-shift round: `x ↦ x ^ (x >> s)`. -/
def xorShift (s x : Nat) : Nat := x ^^^ (x >>> s)

/-! ## The rounds of the scrambler -/

theorem add64_not64_shl64 (x : Nat) :
    add64 (not64 x) (shl64 x 21) = ((2 ^ 21 - 1) * x + (2 ^ 64 - 1)) % 2 ^ 64 := by
  unfold add64 not64 shl64
  rw [Nat.shiftLeft_eq]
  norm_num
  omega

theorem add64_shl64_265 (x : Nat) :
    add64 (add64 x (shl64 x 3)) (shl64 x 8) = (265 * x) % 2 ^ 64 := by
  unfold add64 shl64
  rw [Nat.shiftLeft_eq, Nat.shiftLeft_eq]
  norm_num
  omega

theorem add64_shl64_21 (x : Nat) :
    add64 (add64 x (shl64 x 2)) (shl64 x 4) = (21 * x) % 2 ^ 64 := by
  unfold add64 shl64
  rw [Nat.shiftLeft_eq, Nat.shiftLeft_eq]
  norm_num
  omega

theorem add64_shl64_31 (x : Nat) :
    add64 x (shl64 x 31) = ((2 ^ 31 + 1) * x) % 2 ^ 64 := by
  unfold add64 shl64
  rw [Nat.shiftLeft_eq]
  norm_num
  omega

theorem mod64_mod (a : Nat) {n : Nat} (hn : n ≤ 64) : a % 2 ^ 64 % 2 ^ n = a % 2 ^ n :=
  Nat.mod_mod_of_dvd a (pow_dvd_pow 2 hn)

/-- On a low-bit mask `2 ^ n - 1` the scrambler is four affine rounds on `n`
bits with three xor-shifts in between. -/
theorem hash64_eq_rounds (key : Nat) {n : Nat} (hn : n ≤ 64) :
    CSplitter.hash64 key (2 ^ n - 1) =
      affRound n (2 ^ 31 + 1) 0 (xorShift 28 (affRound n 21 0 (xorShift 14
        (affRound n 265 0 (xorShift 24 (affRound n (2 ^ 21 - 1) (2 ^ 64 - 1) key)))))) := by
  simp only [CSplitter.hash64, affRound, xorShift, Nat.and_pow_two_sub_one_eq_mod,
    add64_not64_shl64, add64_shl64_265, add64_shl64_21, add64_shl64_31, mod64_mod _ hn,
    Nat.add_zero]

theorem affRound_lt (n c d x : Nat) : affRound n c d x < 2 ^ n :=
  Nat.mod_lt _ (Nat.pos_pow_of_pos n (by decide))

theorem affRound_mod (n c d x : Nat) : affRound n c d (x % 2 ^ n) = affRound n c d x := by
  unfold affRound
  conv_rhs => rw [Nat.add_mod, Nat.mul_mod]
  conv_lhs => rw [Nat.add_mod, Nat.mul_mod, Nat.mod_mod]

theorem affRound_inj {n c d x y : Nat} (hc : c % 2 = 1) (hx : x < 2 ^ n) (hy : y < 2 ^ n)
    (h : affRound n c d x = affRound n c d y) : x = y := by
  unfold affRound at h
  have h1 : c * x ≡ c * y [MOD 2 ^ n] := Nat.ModEq.add_right_cancel' d h
  have hcop : Nat.gcd (2 ^ n) c = 1 := by
    have h2 : Nat.Coprime 2 c := by
      rw [Nat.coprime_comm]
      exact Nat.coprime_two_right.mpr (Nat.odd_iff.mpr hc)
    exact Nat.Coprime.pow_left n h2
  have h3 : x ≡ y [MOD 2 ^ n] := Nat.ModEq.cancel_left_of_coprime hcop h1
  exact Nat.ModEq.eq_of_lt_of_lt h3 hx hy

theorem xorShift_lt {n s x : Nat} (hx : x < 2 ^ n) : xorShift s x < 2 ^ n := by
  refine Nat.xor_lt_two_pow hx (lt_of_le_of_lt ?_ hx)
  rw [Nat.shiftRight_eq_div_pow]
  exact Nat.div_le_self x (2 ^ s)

theorem xorShift_testBit (s x i : Nat) :
    (xorShift s x).testBit i = xor (x.testBit i) (x.testBit (s + i)) := by
  simp [xorShift]

theorem xorShift_inj {n s x y : Nat} (hs : 0 < s) (hx : x < 2 ^ n) (hy : y < 2 ^ n)
    (h : xorShift s x = xorShift s y) : x = y := by
  have key : ∀ d i, n ≤ i + d → x.testBit i = y.testBit i := by
    intro d
    induction d with
    | zero =>
      intro i hi
      have hxi : x < 2 ^ i := lt_of_lt_of_le hx (Nat.pow_le_pow_right (by decide) hi)
      have hyi : y < 2 ^ i := lt_of_lt_of_le hy (Nat.pow_le_pow_right (by decide) hi)
      rw [Nat.testBit_lt_two_pow hxi, Nat.testBit_lt_two_pow hyi]
    | succ d ih =>
      intro i hi
      have hb := congrArg (fun z => Nat.testBit z i) h
      simp only [xorShift_testBit] at hb
      have hhi : x.testBit (s + i) = y.testBit (s + i) := ih (s + i) (by omega)
      rw [hhi] at hb
      cases hx1 : x.testBit i <;> cases hy1 : y.testBit i <;>
        cases hz : y.testBit (s + i) <;> simp_all
  exact Nat.eq_of_testBit_eq (fun i => key n i (by omega))

namespace CSplitter

theorem le_mask_iff (n x : Nat) : x ≤ 2 ^ n - 1 ↔ x < 2 ^ n := by
  have h : 0 < 2 ^ n := Nat.pos_pow_of_pos n (by decide)
  omega

theorem hash64_lt (key : Nat) {n : Nat} (hn : n ≤ 64) : hash64 key (2 ^ n - 1) < 2 ^ n := by
  rw [hash64_eq_rounds key hn]
  exact affRound_lt _ _ _ _

theorem hash64_inj_lt {n x y : Nat} (hn : n ≤ 64) (hx : x < 2 ^ n) (hy : y < 2 ^ n)
    (h : hash64 x (2 ^ n - 1) = hash64 y (2 ^ n - 1)) : x = y := by
  rw [hash64_eq_rounds x hn, hash64_eq_rounds y hn] at h
  have a1 := fun z => affRound_lt n (2 ^ 21 - 1) (2 ^ 64 - 1) z
  have a2 := fun z => affRound_lt n 265 0 z
  have a3 := fun z => affRound_lt n 21 0 z
  have h6 := affRound_inj (by decide) (xorShift_lt (a3 _)) (xorShift_lt (a3 _)) h
  have h5 := xorShift_inj (by decide) (a3 _) (a3 _) h6
  have h4 := affRound_inj (by decide) (xorShift_lt (a2 _)) (xorShift_lt (a2 _)) h5
  have h3 := xorShift_inj (by decide) (a2 _) (a2 _) h4
  have h2 := affRound_inj (by decide) (xorShift_lt (a1 _)) (xorShift_lt (a1 _)) h3
  have h1 := xorShift_inj (by decide) (a1 _) (a1 _) h2
  exact affRound_inj (by decide) hx hy h1

theorem hash64_surj_lt {n y : Nat} (hn : n ≤ 64) (hy : y < 2 ^ n) :
    ∃ x, x < 2 ^ n ∧ hash64 x (2 ^ n - 1) = y := by
  let f : Fin (2 ^ n) → Fin (2 ^ n) := fun x => ⟨hash64 x.1 (2 ^ n - 1), hash64_lt x.1 hn⟩
  have hf : Function.Injective f := by
    intro a b hab
    have h := congrArg Fin.val hab
    exact Fin.ext (hash64_inj_lt hn a.2 b.2 h)
  obtain ⟨x, hx⟩ := (Finite.injective_iff_surjective.mp hf) ⟨y, hy⟩
  exact ⟨x.1, x.2, congrArg Fin.val hx⟩

theorem hash64_mod_key (key : Nat) {n : Nat} (hn : n ≤ 64) :
    hash64 (key % 2 ^ n) (2 ^ n - 1) = hash64 key (2 ^ n - 1) := by
  rw [hash64_eq_rounds _ hn, hash64_eq_rounds key hn, affRound_mod]

/-- C1: on a low-bit mask `2 ^ n - 1` (`0 ≤ n ≤ 64`) two masked inputs with the same
scrambled value are equal. -/
theorem hash64_injective_on_masked_domain (n : Nat) (hn : n ≤ 64) (x y : Nat)
    (hx : x ≤ 2 ^ n - 1) (hy : y ≤ 2 ^ n - 1)
    (h : hash64 x (2 ^ n - 1) = hash64 y (2 ^ n - 1)) : x = y :=
  hash64_inj_lt hn ((le_mask_iff n x).mp hx) ((le_mask_iff n y).mp hy) h

/-- Witness of C1: `n = 4`, `x = y = 5`, where `hash64 5 15 = 2`. -/
theorem hash64_injective_on_masked_domain_witness :
    (4 ≤ 64 ∧ 5 ≤ 2 ^ 4 - 1 ∧ hash64 5 (2 ^ 4 - 1) = 2 ∧ hash64 5 (2 ^ 4 - 1) = hash64 5 (2 ^ 4 - 1))
      ∧ 5 = 5 :=
  ⟨⟨by decide, by decide, by decide, rfl⟩,
    hash64_injective_on_masked_domain 4 (by decide) 5 5 (by decide) (by decide) rfl⟩

/-- C2: the value of `hash64` has no bit outside the mask, for every key and every
mask; on a mask `2 ^ n - 1` it is at most the mask, and on the mask 0 it is 0. -/
theorem hash64_within_mask (key mask n : Nat) :
    hash64 key mask &&& mask = hash64 key mask ∧ hash64 key (2 ^ n - 1) ≤ 2 ^ n - 1 ∧
      hash64 key 0 = 0 := by
  refine ⟨?_, ?_, ?_⟩
  · simp only [CSplitter.hash64, Nat.and_assoc, Nat.and_self]
  · simp only [CSplitter.hash64]
    exact Nat.and_le_right
  · simp only [CSplitter.hash64, Nat.and_zero]

/-- C8: the shift-and-add rounds of `hash64` are the multiplications named in its
comments, and the first round is `(key << 21) - key - 1` modulo `2 ^ 64`. -/
theorem hash64_eq_hash64_mul (key mask : Nat) :
    hash64 key mask = hash64_mul key mask ∧
      ((add64 (not64 key) (shl64 key 21) : Nat) : Int)
        = ((key : Int) * 2 ^ 21 - (key : Int) - 1) % 2 ^ 64 := by
  have h1 : add64 (not64 key) (shl64 key 21)
      = (((key : Int) * (2 ^ 21 - 1) - 1) % 2 ^ 64).toNat := by
    rw [add64_not64_shl64]
    norm_num
    omega
  refine ⟨?_, ?_⟩
  · simp only [CSplitter.hash64, hash64_mul, add64_shl64_265, add64_shl64_21, add64_shl64_31, h1]
  · rw [add64_not64_shl64]
    norm_num
    omega

/-- C9: on a low-bit mask `2 ^ n - 1` (`0 ≤ n ≤ 64`) the scrambler reads only the low
`n` bits of the key: pre-masking the key changes nothing, and two keys that agree on
their low `n` bits scramble to the same value. -/
theorem hash64_ignores_high_bits (n : Nat) (hn : n ≤ 64) (key key2 : Nat) :
    hash64 key (2 ^ n - 1) = hash64 (key &&& (2 ^ n - 1)) (2 ^ n - 1) ∧
      (key &&& (2 ^ n - 1) = key2 &&& (2 ^ n - 1) →
        hash64 key (2 ^ n - 1) = hash64 key2 (2 ^ n - 1)) := by
  simp only [Nat.and_pow_two_sub_one_eq_mod]
  refine ⟨(hash64_mod_key key hn).symm, fun h => ?_⟩
  rw [← hash64_mod_key key hn, ← hash64_mod_key key2 hn, h]

/-- Witness of C9: `n = 4`, the keys `0x123` and `0xff3`, which agree on their low 4 bits. -/
theorem hash64_ignores_high_bits_witness :
    4 ≤ 64 ∧ hash64 0x123 (2 ^ 4 - 1) = hash64 (0x123 &&& (2 ^ 4 - 1)) (2 ^ 4 - 1) ∧
      hash64 0x123 (2 ^ 4 - 1) = hash64 0xff3 (2 ^ 4 - 1) :=
  ⟨by decide, (hash64_ignores_high_bits 4 (by decide) 0x123 0xff3).1,
    (hash64_ignores_high_bits 4 (by decide) 0x123 0xff3).2 (by decide)⟩

/-- C3: on every low-bit mask `2 ^ n - 1` (`0 ≤ n ≤ 64`) each masked value is the
scrambled value of some masked input, and one function `inv` undoes `hash64` on all
these masks: `inv (hash64 x mask) mask = x` and `hash64 (inv y mask) mask = y`. -/
theorem hash64_onto_masked_domain :
    (∀ n, n ≤ 64 → ∀ y, y ≤ 2 ^ n - 1 → ∃ x, x ≤ 2 ^ n - 1 ∧ hash64 x (2 ^ n - 1) = y) ∧
    ∃ inv : Nat → Nat → Nat, ∀ n, n ≤ 64 → ∀ z, z ≤ 2 ^ n - 1 →
      inv (hash64 z (2 ^ n - 1)) (2 ^ n - 1) = z ∧ inv z (2 ^ n - 1) ≤ 2 ^ n - 1 ∧
        hash64 (inv z (2 ^ n - 1)) (2 ^ n - 1) = z := by
  have onto : ∀ n, n ≤ 64 → ∀ y, y ≤ 2 ^ n - 1 →
      ∃ x, x ≤ 2 ^ n - 1 ∧ hash64 x (2 ^ n - 1) = y := by
    intro n hn y hy
    obtain ⟨x, hx, hxy⟩ := hash64_surj_lt hn ((le_mask_iff n y).mp hy)
    exact ⟨x, (le_mask_iff n x).mpr hx, hxy⟩
  refine ⟨onto, ?_⟩
  classical
  refine ⟨fun y mask => if h : ∃ x, x ≤ mask ∧ hash64 x mask = y then Classical.choose h else 0,
    ?_⟩
  intro n hn z hz
  have h1 : ∃ x, x ≤ 2 ^ n - 1 ∧ hash64 x (2 ^ n - 1) = hash64 z (2 ^ n - 1) := ⟨z, hz, rfl⟩
  have h2 : ∃ x, x ≤ 2 ^ n - 1 ∧ hash64 x (2 ^ n - 1) = z := onto n hn z hz
  beta_reduce
  refine ⟨?_, ?_, ?_⟩
  · rw [dif_pos h1]
    have hc := Classical.choose_spec h1
    exact hash64_inj_lt hn ((le_mask_iff n _).mp hc.1) ((le_mask_iff n z).mp hz) hc.2
  · rw [dif_pos h2]
    exact (Classical.choose_spec h2).1
  · rw [dif_pos h2]
    exact (Classical.choose_spec h2).2

/-- Witness of C3: `n = 4`, `y = 2`, reached from `x = 5`. -/
theorem hash64_onto_masked_domain_witness :
    (4 ≤ 64 ∧ 2 ≤ 2 ^ 4 - 1) ∧ hash64 5 (2 ^ 4 - 1) = 2 ∧
      ∃ x, x ≤ 2 ^ 4 - 1 ∧ hash64 x (2 ^ 4 - 1) = 2 :=
  ⟨⟨by decide, by decide⟩, by decide,
    hash64_onto_masked_domain.1 4 (by decide) 2 (by decide)⟩

/-- C4, as stated, fails: on the mask `0x01010100`, whose masked domain has the 8
elements with bits among 8, 16 and 24, the two distinct masked values `0` and
`0x01010100` scramble to the same value `0`. -/
theorem hash64_collision_on_sparse_mask :
    0x01010100 < 2 ^ 64 ∧ 0 &&& 0x01010100 = 0 ∧ 0x01010100 &&& 0x01010100 = 0x01010100 ∧
      0 ≠ 0x01010100 ∧ hash64 0 0x01010100 = 0 ∧ hash64 0x01010100 0x01010100 = 0 := by
  decide

/-- C4, amended: on every low-bit mask `2 ^ n - 1` (`0 ≤ n ≤ 64`) two distinct values
`x`, `y` with `x & mask = x` and `y & mask = y` never scramble to the same value. -/
theorem hash64_no_collision_low_bit_mask (n : Nat) (hn : n ≤ 64) (x y : Nat)
    (hx : x &&& (2 ^ n - 1) = x) (hy : y &&& (2 ^ n - 1) = y) (hxy : x ≠ y) :
    hash64 x (2 ^ n - 1) ≠ hash64 y (2 ^ n - 1) := by
  intro h
  have hpos : 0 < 2 ^ n := Nat.pos_pow_of_pos n (by decide)
  rw [Nat.and_pow_two_sub_one_eq_mod] at hx hy
  have hx1 : x < 2 ^ n := hx ▸ Nat.mod_lt x hpos
  have hy1 : y < 2 ^ n := hy ▸ Nat.mod_lt y hpos
  exact hxy (hash64_inj_lt hn hx1 hy1 h)

/-- Witness of C4 amended: `n = 4`, `x = 3`, `y = 5`. -/
theorem hash64_no_collision_low_bit_mask_witness :
    (4 ≤ 64 ∧ 3 &&& (2 ^ 4 - 1) = 3 ∧ 5 &&& (2 ^ 4 - 1) = 5 ∧ 3 ≠ 5) ∧
      hash64 3 (2 ^ 4 - 1) ≠ hash64 5 (2 ^ 4 - 1) :=
  ⟨by decide, hash64_no_collision_low_bit_mask 4 (by decide) 3 5 (by decide) (by decide)
    (by decide)⟩

/-! ## Homopolymer compression -/

theorem collapseRuns_head (l : List Char) (a : Char) :
    (collapseRuns (a :: l)).head? = some a := by
  induction l generalizing a with
  | nil => rfl
  | cons b rest ih =>
    by_cases hab : a = b
    · subst hab
      simpa [collapseRuns] using ih a
    · simp [collapseRuns, hab]

theorem collapseRuns_chain (l : List Char) : List.Chain' (fun a b => a ≠ b) (collapseRuns l) := by
  induction l using collapseRuns.induct with
  | case1 => simp [collapseRuns]
  | case2 a => simp [collapseRuns]
  | case3 b rest ih => simpa [collapseRuns] using ih
  | case4 a b rest hab ih =>
    simp only [collapseRuns, hab, if_false]
    rw [List.chain'_cons']
    refine ⟨?_, ih⟩
    intro y hy
    rw [collapseRuns_head] at hy
    simp only [Option.mem_def, Option.some.injEq] at hy
    exact hy ▸ hab

theorem collapseRuns_of_chain (l : List Char) (h : List.Chain' (fun a b => a ≠ b) l) :
    collapseRuns l = l := by
  induction l using collapseRuns.induct with
  | case1 => rfl
  | case2 a => rfl
  | case3 b rest ih =>
    rw [List.chain'_cons] at h
    exact absurd rfl h.1
  | case4 a b rest hab ih =>
    rw [List.chain'_cons] at h
    simp only [collapseRuns, hab, if_false, ih h.2]

theorem collapseRuns_idem (l : List Char) : collapseRuns (collapseRuns l) = collapseRuns l :=
  collapseRuns_of_chain _ (collapseRuns_chain l)

theorem collapseRuns_eq_destutter (l : List Char) :
    collapseRuns l = l.destutter (fun a b => a ≠ b) := by
  induction l using collapseRuns.induct with
  | case1 => rfl
  | case2 a => rfl
  | case3 b rest ih =>
    simp only [collapseRuns, if_true] 
    rw [ih]
    simp [List.destutter, List.destutter']
  | case4 a b rest hab ih =>
    simp only [collapseRuns, hab, if_false]
    rw [ih]
    simp [List.destutter, List.destutter', hab]

/-- C6: `HomopolymerCompressSeq` turns "AAAACGTT" into "ACGT" with `seq_size = 4`;
its output has no two equal adjacent bases and `seq_size` is the length of the output;
a sequence with no two equal adjacent bases, and its `seq_size`, are left unchanged; and
applying it to its own output changes nothing. -/
theorem HomopolymerCompressSeq_collapses (seq : List Char) (seq_size : Nat) :
    HomopolymerCompressSeq "AAAACGTT".toList 8 = ("ACGT".toList, 4) ∧
    List.Chain' (fun a b => a ≠ b) (HomopolymerCompressSeq seq seq_size).1 ∧
    (HomopolymerCompressSeq seq seq_size).2 = (HomopolymerCompressSeq seq seq_size).1.length ∧
    (HomopolymerCompressSeq seq seq_size).1
      = (seq.take seq_size).destutter (fun a b => a ≠ b) ∧
    (List.Chain' (fun a b => a ≠ b) seq →
      HomopolymerCompressSeq seq seq.length = (seq, seq.length)) ∧
    HomopolymerCompressSeq (HomopolymerCompressSeq seq seq_size).1
        (HomopolymerCompressSeq seq seq_size).2 = HomopolymerCompressSeq seq seq_size := by
  refine ⟨by decide, collapseRuns_chain _, rfl, collapseRuns_eq_destutter _, ?_, ?_⟩
  · intro h
    simp only [HomopolymerCompressSeq, List.take_length, collapseRuns_of_chain seq h]
  · simp only [HomopolymerCompressSeq, List.take_length, collapseRuns_idem]

/-- Witness of C6: "ACGTACGTAC" has no two equal adjacent bases and is left unchanged. -/
theorem HomopolymerCompressSeq_collapses_witness :
    List.Chain' (fun a b => a ≠ b) "ACGTACGTAC".toList ∧
      HomopolymerCompressSeq "ACGTACGTAC".toList "ACGTACGTAC".toList.length
        = ("ACGTACGTAC".toList, 10) :=
  ⟨by simp, (HomopolymerCompressSeq_collapses "ACGTACGTAC".toList 10).2.2.2.2.1 (by simp)⟩

/-! ## The accessors -/

/-- C7: `GetTotal` leaves `n_reads` in its reference parameter and `GetTotalKmers`
returns `total_kmers`; neither changes the splitter, so a second call gives the same
value; and a freshly constructed splitter has `total_kmers = 0`. -/
theorem GetTotal_GetTotalKmers_read_only (s fields : CSplitter) (out out2 : Nat) :
    (s.GetTotal out).2 = s.n_reads ∧ (s.GetTotal out).1 = s ∧
    s.GetTotalKmers.2 = s.total_kmers ∧ s.GetTotalKmers.1 = s ∧
    ((s.GetTotal out).1.GetTotal out2).2 = (s.GetTotal out).2 ∧
    (s.GetTotalKmers.1.GetTotalKmers).2 = s.GetTotalKmers.2 ∧
    (constructed fields).total_kmers = 0 ∧ (constructed fields).GetTotalKmers.2 = 0 :=
  ⟨rfl, rfl, rfl, rfl, rfl, rfl, rfl, rfl⟩

end CSplitter

/-- C10: `CWSmallKSplitter::GetTotalKmers` returns the splitter's `total_kmers` when
`spl` is non-null, whatever the wrapper's own `total_kmers`, and the wrapper's
`total_kmers` when `spl` is null; the call changes neither the wrapper nor the
splitter it owns. -/
theorem CWSmallKSplitter_GetTotalKmers_spec (w : CWSmallKSplitter) :
    (∀ s, w.spl = some s →
      w.GetTotalKmers.2 = s.GetTotalKmers.2 ∧ w.GetTotalKmers.2 = s.total_kmers ∧
        w.GetTotalKmers.1.spl = some s) ∧
    (w.spl = none → w.GetTotalKmers.2 = w.total_kmers) ∧
    w.GetTotalKmers.1 = w := by
  refine ⟨?_, ?_, ?_⟩
  · intro s hs
    simp [CWSmallKSplitter.GetTotalKmers, hs, CSplitter.GetTotalKmers]
  · intro hs
    simp [CWSmallKSplitter.GetTotalKmers, hs]
  · cases hs : w.spl with
    | none => simp [CWSmallKSplitter.GetTotalKmers, hs]
    | some s =>
      simp only [CWSmallKSplitter.GetTotalKmers, hs, CSplitter.GetTotalKmers]
      rw [← hs]

/-- Witness of C10: a wrapper that owns a splitter holding 7 k-mers and stores 3 itself, and a wrapper with a null `spl` that stores 3. -/
theorem CWSmallKSplitter_GetTotalKmers_spec_witness :
    (CWSmallKSplitter.sample (some { CSplitter.sample 4 false false with total_kmers := 7 })
        3).GetTotalKmers.2 = 7 ∧
      (CWSmallKSplitter.sample none 3).GetTotalKmers.2 = 3 :=
  ⟨((CWSmallKSplitter_GetTotalKmers_spec (CWSmallKSplitter.sample
      (some { CSplitter.sample 4 false false with total_kmers := 7 }) 3)).1 _ rfl).2.1,
    (CWSmallKSplitter_GetTotalKmers_spec (CWSmallKSplitter.sample none 3)).2.1 rfl⟩


end KMC
